import Mathlib

open Complex (I)

/-! Verification development for the quantum circuit synthesis repository:
the Draper adder (drapper.py), the Quantum Fourier Transform builder
(quantum_fourier_transform.py) and the gate basis transformer
(gate_basis_transformer.py).  Circuits are embedded as lists of gate
instructions; rotation angles are recorded by their rational coefficient of
pi radians, so the float 2*pi/2^k of the source becomes the rational 2/2^k. -/

/-- Gate instructions appearing in the Draper adder and QFT circuits.
Angles are rational coefficients of pi radians. -/
inductive Gate where
  | x (qubit : ℕ)
  | h (qubit : ℕ)
  | cp (angle : ℚ) (control : ℕ) (target : ℕ)
  | p (angle : ℚ) (qubit : ℕ)
  | swap (q1 : ℕ) (q2 : ℕ)
  | measure (qubit : ℕ) (clbit : ℕ)
deriving DecidableEq

/-- A circuit: a qubit register, a classical register and an ordered list of
gate instructions, mirroring QuantumCircuit(n_qubits, n_clbits). -/
structure Circuit where
  numQubits : ℕ
  numClbits : ℕ
  gates : List Gate
deriving DecidableEq

/-- QuantumFourierTransform._create_cphase_gate: the controlled phase rotation
cp(2*pi/2^k, control, target) it appends, with the angle as a coefficient of
pi (2*pi/2^k radians becomes the rational 2/2^k). -/
def createCphaseGate (control target k : ℕ) : Gate :=
  Gate.cp (2 / 2 ^ k) control target

/-- Gate list built by QuantumFourierTransform.construct_qft: for each qubit i
a Hadamard, then for j in range(i+1, n) the controlled phase rotation with
k = j - i + 1; finally the qubit-order-reversing swaps for i in range(n / 2). -/
def qftGates (n : ℕ) : List Gate :=
  ((List.range n).flatMap fun i =>
    Gate.h i ::
      ((List.range' (i + 1) (n - (i + 1))).map fun j => createCphaseGate j i (j - i + 1)))
  ++ ((List.range (n / 2)).map fun i => Gate.swap i (n - i - 1))

/-- QuantumFourierTransform.construct_qft.  The method itself performs no
validation; the library QuantumCircuit constructor it calls rejects a negative
register size, which the embedding reflects by an error value.  A size of 0
is accepted by the library and yields an empty circuit. -/
def constructQft (n_qubits : ℤ) : Except String Circuit :=
  if n_qubits < 0 then Except.error ("Register size must be non-negative")
  else Except.ok { numQubits := n_qubits.toNat, numClbits := 0, gates := qftGates n_qubits.toNat }

/-- Inverse of one gate as the library inverse() computes it: self-inverse
gates are unchanged and phase angles are negated.  The library raises on a
measurement; every circuit inverted in this code base is measurement free, so
the embedding maps a measurement to itself. -/
def Gate.inv : Gate → Gate
  | Gate.x q => Gate.x q
  | Gate.h q => Gate.h q
  | Gate.cp r c t => Gate.cp (-r) c t
  | Gate.p r q => Gate.p (-r) q
  | Gate.swap a b => Gate.swap a b
  | Gate.measure q c => Gate.measure q c

/-- Circuit inverse as the library computes it: every gate inverted and the
gate order reversed. -/
def Circuit.inverse (c : Circuit) : Circuit :=
  { numQubits := c.numQubits, numClbits := c.numClbits, gates := (c.gates.map Gate.inv).reverse }

/-- QuantumFourierTransform.construct_inverse_qft: build construct_qft(n) and
return its inverse, propagating any construction failure. -/
def constructInverseQft (n_qubits : ℤ) : Except String Circuit :=
  match constructQft n_qubits with
  | Except.error e => Except.error e
  | Except.ok qft => Except.ok qft.inverse

/-- DraperAdder._binary_to_phase_angles: for each i in range(n_qubits) the
accumulated angle over j in range(i+1) of 2*pi/2^(i-j+1) for the set bits of
number (the test number & (1 << j) is embedded as Nat.testBit), with angles
as coefficients of pi. -/
def binaryToPhaseAngles (number : ℕ) (n_qubits : ℕ) : List ℚ :=
  (List.range n_qubits).map fun i =>
    (List.range (i + 1)).foldl
      (fun angle j => if number.testBit j then angle + 2 / 2 ^ (i - j + 1) else angle) 0

/-- DraperAdder.construct_adder: range check, X preparation of operand a (the
test a & (1 << i) is embedded as Nat.testBit), composition of the forward
QFT, one phase rotation per qubit from the angle list of operand b,
composition of the inverse QFT, and a measurement of every qubit into the
matching classical bit.  Composing a circuit appends its gate list. -/
def constructAdder (a b : ℕ) (n_qubits : ℕ) : Except String Circuit :=
  if 2 ^ n_qubits ≤ a ∨ 2 ^ n_qubits ≤ b then
    Except.error ("Numbers too large for the given number of qubits")
  else
    match constructQft (n_qubits : ℤ) with
    | Except.error e => Except.error e
    | Except.ok qftCircuit =>
      match constructInverseQft (n_qubits : ℤ) with
      | Except.error e => Except.error e
      | Except.ok inverseQftCircuit =>
        let xGates := (List.range n_qubits).filterMap fun i =>
          if a.testBit i then some (Gate.x i) else none
        let angles := binaryToPhaseAngles b n_qubits
        let phaseGates := (List.range n_qubits).map fun i => Gate.p (angles.getD i 0) i
        let measureGates := (List.range n_qubits).map fun i => Gate.measure i i
        Except.ok
          { numQubits := n_qubits, numClbits := n_qubits,
            gates := xGates ++ qftCircuit.gates ++ phaseGates
                     ++ inverseQftCircuit.gates ++ measureGates }

/-- DraperAdder.quantum_sum: the qubit count is
max(bit_length(a+b), bit_length(a), bit_length(b)) (Python int.bit_length is
Nat.size), then construct_adder is called and the circuit is returned
together with the qubit count. -/
def quantumSum (a b : ℕ) : Except String (Circuit × ℕ) :=
  let sum_value := a + b
  let n_qubits := max sum_value.size (max a.size b.size)
  match constructAdder a b n_qubits with
  | Except.error e => Except.error e
  | Except.ok circuit => Except.ok (circuit, n_qubits)

/-! Gate basis transformer (gate_basis_transformer.py).  Here circuits carry
named instructions, mirroring the library instruction records the transformer
inspects: an operator name, real parameters (again as rational coefficients
of pi), qubit indices and classical bit indices.  The transformer depends on
two library collaborators, which the embedding takes as parameters: the Euler
angle extraction OneQubitEulerDecomposer.angles (a function from an
instruction to its ZYZ triple theta, phi, lambda) and the library
QuantumCircuit.decompose step used for generic multi-qubit operators (a
function from an instruction to its expansion over local qubit indices). -/

/-- A named instruction, as the transformer sees circuit data. -/
structure Inst where
  name : String
  params : List ℚ
  qubits : List ℕ
  clbits : List ℕ
deriving DecidableEq

/-- A circuit of named instructions. -/
structure GCircuit where
  numQubits : ℕ
  numClbits : ℕ
  insts : List Inst
deriving DecidableEq

/-- The fixed basis set of GateBasisTransformer. -/
def basisGates : List String := ["cx", "id", "rz", "sx", "x"]

/-- Python str.lower(), embedded over the string characters. -/
def strLower (s : String) : String := String.mk (s.data.map Char.toLower)

/-- GateBasisTransformer._decompose_single_qubit_gate: take the Euler triple
(theta, phi, lambda) from the library decomposer and emit exactly five
operations on the given qubit: rz(phi), sx, rz(theta), sx, rz(lambda). -/
def decomposeSingleQubitGate (eulerAngles : Inst → ℚ × ℚ × ℚ) (gate : Inst) (qubit : ℕ) :
    List Inst :=
  let angles := eulerAngles gate
  [{ name := "rz", params := [angles.2.1], qubits := [qubit], clbits := [] },
   { name := "sx", params := [], qubits := [qubit], clbits := [] },
   { name := "rz", params := [angles.1], qubits := [qubit], clbits := [] },
   { name := "sx", params := [], qubits := [qubit], clbits := [] },
   { name := "rz", params := [angles.2.2], qubits := [qubit], clbits := [] }]

/-- Remapping of a locally indexed instruction back to the global qubits of
the original operator: local index q becomes qubits[q], embedding
qubits[temp_circuit.qubits.index(q)] (the temporary register makes index the
identity). -/
def remapQubits (gate : Inst) (inst : Inst) : Inst :=
  { inst with qubits := inst.qubits.map fun q => gate.qubits.getD q 0 }

/-- GateBasisTransformer.transform_circuit: walk the operation nodes in
order; skip measurements; copy basis-named gates verbatim; Euler-decompose
other single-qubit gates; copy cx; and for any other multi-qubit operator,
decompose it through the library collaborator, Euler-decomposing the
single-qubit pieces and appending multi-qubit pieces with remapped qubits. -/
def transformCircuit (eulerAngles : Inst → ℚ × ℚ × ℚ) (libDecompose : Inst → List Inst)
    (circuit : GCircuit) : GCircuit :=
  { numQubits := circuit.numQubits, numClbits := circuit.numClbits,
    insts := circuit.insts.flatMap fun gate =>
      if gate.name = "measure" then []
      else if strLower gate.name ∈ basisGates then [gate]
      else if gate.qubits.length = 1 then
        decomposeSingleQubitGate eulerAngles gate (gate.qubits.getD 0 0)
      else if gate.name = "cx" then [gate]
      else (libDecompose gate).flatMap fun inst =>
        if inst.qubits.length = 1 then
          decomposeSingleQubitGate eulerAngles inst (gate.qubits.getD (inst.qubits.getD 0 0) 0)
        else [remapQubits gate inst] }

/-- GateBasisTransformer.get_gate_counts: a counter over the basis gate
names, incremented at each instruction whose lowercased name is a key. -/
def getGateCounts (circuit : GCircuit) : List (String × ℕ) :=
  circuit.insts.foldl
    (fun counts inst =>
      let gate_name := strLower inst.name
      if (counts.lookup gate_name).isSome then
        counts.map fun p => if p.1 = gate_name then (p.1, p.2 + 1) else p
      else counts)
    (basisGates.map fun g => (g, 0))

/-- Total of all counter values of a gate count table. -/
def valueSum (counts : List (String × ℕ)) : ℕ := (counts.map Prod.snd).sum

/-! State vector semantics of the adder/QFT gate set.  A state assigns a
complex amplitude to every computational basis index (basis states are
binary encoded naturals).  A rotation recorded with rational coefficient r
stands for the angle r * pi radians. -/

/-- The complex phase of a rotation whose angle is r * pi radians. -/
noncomputable def phaseFactor (r : ℚ) : ℂ := Complex.exp ((r : ℝ) * Real.pi * I)

/-- Exchange bits a and b of the basis index s. -/
def swapBits (s a b : ℕ) : ℕ :=
  if s.testBit a = s.testBit b then s else s ^^^ 2 ^ a ^^^ 2 ^ b

/-- Action of one gate on a state vector.  A measurement is not a unitary
map; it leaves the amplitudes unchanged here, and no circuit whose semantics
this development reasons about contains one. -/
noncomputable def applyGate : Gate → (ℕ → ℂ) → (ℕ → ℂ)
  | Gate.x q, f => fun s => f (s ^^^ 2 ^ q)
  | Gate.h q, f => fun s =>
      if s.testBit q then (f (s ^^^ 2 ^ q) - f s) / (Real.sqrt 2 : ℂ)
      else (f s + f (s ^^^ 2 ^ q)) / (Real.sqrt 2 : ℂ)
  | Gate.cp r c t, f => fun s =>
      if s.testBit c ∧ s.testBit t then phaseFactor r * f s else f s
  | Gate.p r q, f => fun s => if s.testBit q then phaseFactor r * f s else f s
  | Gate.swap a b, f => fun s => f (swapBits s a b)
  | Gate.measure _ _, f => f

/-- Run a gate list on a state, first gate first. -/
noncomputable def runGates (gates : List Gate) (f : ℕ → ℂ) : ℕ → ℂ :=
  gates.foldl (fun g gate => applyGate gate g) f

/-- The computational basis state of index x. -/
noncomputable def basisState (x : ℕ) : ℕ → ℂ := fun s => if s = x then 1 else 0

/-! Matrix semantics for the single-qubit Euler decomposition.  RZ and RY
take the rotation angle as a rational coefficient of pi radians; SX is the
square root of X with matrix (1/2) [[1+i, 1-i], [1-i, 1+i]]. -/

/-- The z rotation RZ(r * pi) = diag(exp(-i r pi / 2), exp(i r pi / 2)). -/
noncomputable def RZc (r : ℚ) : Matrix (Fin 2) (Fin 2) ℂ :=
  !![Complex.exp (-((r : ℝ) * Real.pi / 2) * I), 0;
     0, Complex.exp (((r : ℝ) * Real.pi / 2) * I)]

/-- The y rotation RY(r * pi). -/
noncomputable def RYc (r : ℚ) : Matrix (Fin 2) (Fin 2) ℂ :=
  !![(Real.cos ((r : ℝ) * Real.pi / 2) : ℂ), -(Real.sin ((r : ℝ) * Real.pi / 2) : ℂ);
     (Real.sin ((r : ℝ) * Real.pi / 2) : ℂ), (Real.cos ((r : ℝ) * Real.pi / 2) : ℂ)]

/-- The sqrt-not gate. -/
noncomputable def SXmat : Matrix (Fin 2) (Fin 2) ℂ :=
  (1 / 2 : ℂ) • !![1 + I, 1 - I; 1 - I, 1 + I]

/-- The Hadamard gate matrix. -/
noncomputable def Hmat : Matrix (Fin 2) (Fin 2) ℂ :=
  ((Real.sqrt 2 / 2 : ℝ) : ℂ) • !![1, 1; 1, -1]

/-- Matrix of one emitted single-qubit basis instruction. -/
noncomputable def instMatrix (inst : Inst) : Matrix (Fin 2) (Fin 2) ℂ :=
  if inst.name = "rz" then RZc (inst.params.getD 0 0)
  else if inst.name = "sx" then SXmat
  else 1

/-- Unitary of an emitted single-qubit instruction sequence, first
instruction applied first. -/
noncomputable def seqUnitary (insts : List Inst) : Matrix (Fin 2) (Fin 2) ℂ :=
  insts.foldl (fun u inst => instMatrix inst * u) 1

/-! Helper lemmas. -/

lemma constructQft_natCast (n : ℕ) :
    constructQft (n : ℤ) = Except.ok ⟨n, 0, qftGates n⟩ := by
  rw [constructQft, if_neg (by omega)]
  simp

lemma constructInverseQft_natCast (n : ℕ) :
    constructInverseQft (n : ℤ)
      = Except.ok ⟨n, 0, ((qftGates n).map Gate.inv).reverse⟩ := by
  rw [constructInverseQft, constructQft_natCast]
  rfl

lemma constructAdder_ok (a b n : ℕ) (h : ¬ (2 ^ n ≤ a ∨ 2 ^ n ≤ b)) :
    constructAdder a b n = Except.ok
      { numQubits := n, numClbits := n,
        gates :=
          ((List.range n).filterMap fun i => if a.testBit i then some (Gate.x i) else none)
          ++ qftGates n
          ++ ((List.range n).map fun i => Gate.p ((binaryToPhaseAngles b n).getD i 0) i)
          ++ ((qftGates n).map Gate.inv).reverse
          ++ ((List.range n).map fun i => Gate.measure i i) } := by
  rw [constructAdder, if_neg h, constructQft_natCast, constructInverseQft_natCast]

lemma quantumSum_eq_map (a b : ℕ) :
    quantumSum a b
      = (constructAdder a b (max (a + b).size (max a.size b.size))).map
          fun c => (c, max (a + b).size (max a.size b.size)) := by
  rw [quantumSum]
  cases h : constructAdder a b (max (a + b).size (max a.size b.size)) with
  | error e => simp [h, Except.map]
  | ok c => simp [h, Except.map]

lemma size_eight : (8 : ℕ).size = 4 :=
  le_antisymm (Nat.size_le.mpr (by norm_num)) (Nat.lt_size.mpr (by norm_num))

lemma size_three : (3 : ℕ).size = 2 :=
  le_antisymm (Nat.size_le.mpr (by norm_num)) (Nat.lt_size.mpr (by norm_num))

lemma size_five : (5 : ℕ).size = 3 :=
  le_antisymm (Nat.size_le.mpr (by norm_num)) (Nat.lt_size.mpr (by norm_num))

/-! Claim theorems for the adder range check and sizing. -/

/-- Claim C2: construct_adder raises a range error exactly when a is at least
2 to the n or b is at least 2 to the n, and then returns no circuit; in
particular construct_adder 5 3 2 fails. -/
theorem construct_adder_range_error :
    (∀ a b n : ℕ,
      (∃ e, constructAdder a b n = Except.error e) ↔ (2 ^ n ≤ a ∨ 2 ^ n ≤ b)) ∧
    (∃ e, constructAdder 5 3 2 = Except.error e) := by
  have herr : ∀ a b n : ℕ, (2 ^ n ≤ a ∨ 2 ^ n ≤ b) →
      constructAdder a b n
        = Except.error ("Numbers too large for the given number of qubits") := by
    intro a b n hcond
    rw [constructAdder, if_pos hcond]
  refine ⟨fun a b n => ⟨?_, fun hcond => ⟨_, herr a b n hcond⟩⟩, ⟨_, herr 5 3 2 (by norm_num)⟩⟩
  intro ⟨e, he⟩
  by_contra hcon
  rw [constructAdder_ok a b n hcon] at he
  exact Except.noConfusion he

/-- Claim C10: quantum_sum 0 0 does not fail: the chosen width is 0 (the bit
length of 0 is 0) and the result is the empty circuit over zero qubits and
zero classical bits, paired with 0. -/
theorem quantum_sum_zero :
    max (0 + 0 : ℕ).size (max (0 : ℕ).size (0 : ℕ).size) = 0 ∧
    quantumSum 0 0 = Except.ok (⟨0, 0, []⟩, 0) := by
  have h0 : max (0 + 0 : ℕ).size (max (0 : ℕ).size (0 : ℕ).size) = 0 := by
    simp [Nat.size_zero]
  refine ⟨h0, ?_⟩
  rw [quantumSum_eq_map, h0, constructAdder_ok 0 0 0 (by norm_num)]
  simp [qftGates, Except.map]

/-- Claim C6 counterexample: at n = 0 construct_qft returns an (empty)
circuit and raises no error, so the claim that every n at most 0 is rejected
fails. -/
theorem construct_qft_zero_ok :
    constructQft 0 = Except.ok ⟨0, 0, []⟩ ∧ ¬ ∃ e, constructQft 0 = Except.error e := by
  have h : constructQft 0 = Except.ok ⟨0, 0, []⟩ := by
    have h0 : constructQft ((0 : ℕ) : ℤ) = Except.ok ⟨0, 0, qftGates 0⟩ := constructQft_natCast 0
    simpa [qftGates] using h0
  exact ⟨h, fun ⟨e, he⟩ => Except.noConfusion (h ▸ he)⟩

/-- Claim C6 amended: construct_qft (and hence construct_inverse_qft) raises
for every negative qubit count, while the count 0 is accepted and yields the
empty circuit. -/
theorem construct_qft_nonpositive_amended :
    (∀ n : ℤ, n < 0 →
      (∃ e, constructQft n = Except.error e) ∧ (∃ e, constructInverseQft n = Except.error e)) ∧
    constructQft 0 = Except.ok ⟨0, 0, []⟩ ∧
    constructInverseQft 0 = Except.ok ⟨0, 0, []⟩ := by
  have hq : ∀ n : ℤ, n < 0 →
      constructQft n = Except.error ("Register size must be non-negative") := by
    intro n hn
    rw [constructQft, if_pos hn]
  have h0 : constructQft ((0 : ℕ) : ℤ) = Except.ok ⟨0, 0, qftGates 0⟩ := constructQft_natCast 0
  have h0q : constructQft 0 = Except.ok ⟨0, 0, []⟩ := by simpa [qftGates] using h0
  refine ⟨fun n hn =>
    ⟨⟨_, hq n hn⟩,
      ⟨"Register size must be non-negative", by rw [constructInverseQft, hq n hn]⟩⟩, h0q, ?_⟩
  rw [constructInverseQft, h0q]
  simp [Circuit.inverse]

/-- Witness for the amended claim C6 at the concrete input n = -1. -/
theorem construct_qft_nonpositive_witness :
    ((-1 : ℤ) < 0) ∧
    (∃ e, constructQft (-1) = Except.error e) ∧
    (∃ e, constructInverseQft (-1) = Except.error e) :=
  ⟨by norm_num, (construct_qft_nonpositive_amended.1 (-1) (by norm_num)).1,
    (construct_qft_nonpositive_amended.1 (-1) (by norm_num)).2⟩

/-- Claim C3: quantum_sum picks the width
max(bit_length(a+b), bit_length(a), bit_length(b)), which is the least m
such that a, b and a+b are all below 2 to the m, delegates to
construct_adder with that width, and returns the circuit with the width; at
a = 3, b = 5 the width is 4. -/
theorem quantum_sum_spec :
    (∀ a b : ℕ, quantumSum a b
        = (constructAdder a b (max (a + b).size (max a.size b.size))).map
            fun c => (c, max (a + b).size (max a.size b.size))) ∧
    (∀ a b m : ℕ,
      (a < 2 ^ m ∧ b < 2 ^ m ∧ a + b < 2 ^ m) ↔
        max (a + b).size (max a.size b.size) ≤ m) ∧
    (∃ c, quantumSum 3 5 = Except.ok (c, 4)) := by
  refine ⟨quantumSum_eq_map, ?_, ?_⟩
  · intro a b m
    rw [max_le_iff, max_le_iff, Nat.size_le, Nat.size_le, Nat.size_le]
    tauto
  · have hmax : max (3 + 5 : ℕ).size (max (3 : ℕ).size (5 : ℕ).size) = 4 := by
      norm_num [size_eight, size_three, size_five]
    obtain ⟨c, hc⟩ : ∃ c, constructAdder 3 5 4 = Except.ok c :=
      ⟨_, constructAdder_ok 3 5 4 (by norm_num)⟩
    exact ⟨c, by rw [quantumSum_eq_map, hmax, hc]; rfl⟩

/-! The accumulated phase angle as a closed sum. -/

lemma foldl_if_add (f : ℕ → ℚ) (p : ℕ → Bool) (l : List ℕ) :
    ∀ a : ℚ, l.foldl (fun acc j => if p j then acc + f j else acc) a
      = a + (l.map fun j => if p j then f j else 0).sum := by
  induction l with
  | nil => intro a; simp
  | cons x xs ih =>
    intro a
    by_cases hx : p x
    · simp [hx, ih, add_assoc]
    · simp [hx, ih]

lemma map_range_sum (f : ℕ → ℚ) (n : ℕ) :
    ((List.range n).map f).sum = ∑ j ∈ Finset.range n, f j := by
  induction n with
  | zero => simp
  | succ m ih => rw [List.range_succ]; simp [Finset.sum_range_succ, ih]

lemma binaryToPhaseAngles_getD (b n i : ℕ) (hi : i < n) :
    (binaryToPhaseAngles b n).getD i 0
      = ∑ j ∈ Finset.range (i + 1), if b.testBit j then (2 : ℚ) / 2 ^ (i - j + 1) else 0 := by
  have hlen : i < (binaryToPhaseAngles b n).length := by
    simp [binaryToPhaseAngles, hi]
  rw [List.getD_eq_getElem _ _ hlen]
  simp only [binaryToPhaseAngles, List.getElem_map, List.getElem_range]
  rw [foldl_if_add (fun j => 2 / 2 ^ (i - j + 1)) (fun j => b.testBit j), zero_add,
    map_range_sum]

/-- Claim C1: for in-range operands, construct_adder builds the circuit over
n qubits and n classical bits whose gates are, in order: an X for every set
bit of a, the forward QFT gates, one phase rotation per qubit i whose angle
accumulates 2*pi/2^(i-j+1) over the set bits j of b with j at most i, the
inverse QFT gates, and a measurement of each qubit into the matching
classical bit.  Angles appear as rational coefficients of pi. -/
theorem construct_adder_spec (a b n : ℕ) (ha : a < 2 ^ n) (hb : b < 2 ^ n) (hn : 0 < n) :
    constructAdder a b n = Except.ok
      { numQubits := n, numClbits := n,
        gates :=
          ((List.range n).filterMap fun i => if a.testBit i then some (Gate.x i) else none)
          ++ qftGates n
          ++ ((List.range n).map fun i =>
                Gate.p (∑ j ∈ Finset.range (i + 1),
                  if b.testBit j then (2 : ℚ) / 2 ^ (i - j + 1) else 0) i)
          ++ ((qftGates n).map Gate.inv).reverse
          ++ ((List.range n).map fun i => Gate.measure i i) } := by
  have hphase :
      ((List.range n).map fun i => Gate.p ((binaryToPhaseAngles b n).getD i 0) i)
        = (List.range n).map fun i =>
            Gate.p (∑ j ∈ Finset.range (i + 1),
              if b.testBit j then (2 : ℚ) / 2 ^ (i - j + 1) else 0) i := by
    apply List.map_congr_left
    intro i hi
    rw [binaryToPhaseAngles_getD b n i (List.mem_range.mp hi)]
  rw [constructAdder_ok a b n (by push_neg; exact ⟨ha, hb⟩), hphase]

/-- Witness for claim C1 at the concrete inputs a = 3, b = 5, n = 4. -/
theorem construct_adder_spec_witness :
    ((3 : ℕ) < 2 ^ 4 ∧ (5 : ℕ) < 2 ^ 4 ∧ (0 : ℕ) < 4) ∧
    constructAdder 3 5 4 = Except.ok
      { numQubits := 4, numClbits := 4,
        gates :=
          ((List.range 4).filterMap fun i =>
            if (3 : ℕ).testBit i then some (Gate.x i) else none)
          ++ qftGates 4
          ++ ((List.range 4).map fun i =>
                Gate.p (∑ j ∈ Finset.range (i + 1),
                  if (5 : ℕ).testBit j then (2 : ℚ) / 2 ^ (i - j + 1) else 0) i)
          ++ ((qftGates 4).map Gate.inv).reverse
          ++ ((List.range 4).map fun i => Gate.measure i i) } :=
  ⟨⟨by norm_num, by norm_num, by norm_num⟩,
    construct_adder_spec 3 5 4 (by norm_num) (by norm_num) (by norm_num)⟩

/-! Range filters used to restate the QFT loops. -/

lemma filter_range_lt (n k : ℕ) (hk : k ≤ n) :
    ((List.range n).filter fun j => j < k) = List.range k := by
  obtain ⟨m, rfl⟩ : ∃ m, n = k + m := ⟨n - k, by omega⟩
  rw [List.range_add, List.filter_append]
  have h1 : (List.range k).filter (fun j => j < k) = List.range k := by
    rw [List.filter_eq_self]
    intro x hx
    simpa using List.mem_range.mp hx
  have h2 : ((List.range m).map (k + ·)).filter (fun j => j < k) = [] := by
    rw [List.filter_eq_nil_iff]
    intro x hx
    simp only [List.mem_map, List.mem_range] at hx
    obtain ⟨y, _, rfl⟩ := hx
    simp
  rw [h1, h2, List.append_nil]

lemma filter_range_gt (n i : ℕ) :
    ((List.range n).filter fun j => i < j) = List.range' (i + 1) (n - (i + 1)) := by
  by_cases h : i + 1 ≤ n
  · obtain ⟨m, rfl⟩ : ∃ m, n = (i + 1) + m := ⟨n - (i + 1), by omega⟩
    rw [List.range_add, List.filter_append]
    have h1 : (List.range (i + 1)).filter (fun j => i < j) = [] := by
      rw [List.filter_eq_nil_iff]
      intro x hx
      have := List.mem_range.mp hx
      simp
      omega
    have h2 : ((List.range m).map ((i + 1) + ·)).filter (fun j => i < j)
        = (List.range m).map ((i + 1) + ·) := by
      rw [List.filter_eq_self]
      intro x hx
      simp only [List.mem_map, List.mem_range] at hx
      obtain ⟨y, _, rfl⟩ := hx
      simp
      omega
    rw [h1, h2, List.nil_append]
    have hm : i + 1 + m - (i + 1) = m := by omega
    rw [hm, List.range'_eq_map_range]
  · have h0 : n - (i + 1) = 0 := by omega
    rw [h0, List.range'_zero]
    rw [List.filter_eq_nil_iff]
    intro x hx
    have := List.mem_range.mp hx
    simp
    omega

lemma flatMap_congr_mem {α β : Type} (l : List α) (f g : α → List β)
    (h : ∀ x ∈ l, f x = g x) : l.flatMap f = l.flatMap g := by
  induction l with
  | nil => rfl
  | cons x xs ih =>
    simp only [List.flatMap_cons]
    rw [h x (by simp), ih fun y hy => h y (by simp [hy])]

/-- Claim C4: for positive n, construct_qft returns the circuit over n
qubits with no classical bits whose gates are, for each qubit i in order, a
Hadamard followed by the controlled phase rotations with control j, target i
and angle 2*pi/2^(j-i+1) for every later qubit j in increasing order, and
finally a swap of qubit i with qubit n-1-i for each i below n/2.  Angles
appear as rational coefficients of pi. -/
theorem construct_qft_spec (n : ℕ) (hn : 0 < n) :
    constructQft (n : ℤ) = Except.ok
      { numQubits := n, numClbits := 0,
        gates :=
          ((List.range n).flatMap fun i =>
            Gate.h i :: (((List.range n).filter fun j => i < j).map fun j =>
              Gate.cp ((2 : ℚ) / 2 ^ (j - i + 1)) j i))
          ++ (((List.range n).filter fun i => i < n / 2).map fun i =>
              Gate.swap i (n - 1 - i)) } := by
  rw [constructQft_natCast]
  have hgates : qftGates n
      = ((List.range n).flatMap fun i =>
          Gate.h i :: (((List.range n).filter fun j => i < j).map fun j =>
            Gate.cp ((2 : ℚ) / 2 ^ (j - i + 1)) j i))
        ++ (((List.range n).filter fun i => i < n / 2).map fun i =>
            Gate.swap i (n - 1 - i)) := by
    rw [qftGates]
    congr 1
    · apply flatMap_congr_mem
      intro i _
      rw [filter_range_gt]
      rfl
    · rw [filter_range_lt n (n / 2) (Nat.div_le_self n 2)]
      apply List.map_congr_left
      intro i _
      congr 1
      omega
  rw [hgates]

/-! Unitarity of the gate set and the QFT round trip. -/

lemma testBit_xor_pow (s q : ℕ) : (s ^^^ 2 ^ q).testBit q = ! s.testBit q := by
  rw [Nat.testBit_xor, Nat.testBit_two_pow_self]
  cases s.testBit q <;> rfl

lemma sqrt2_sq : ((Real.sqrt 2 : ℝ) : ℂ) * ((Real.sqrt 2 : ℝ) : ℂ) = 2 := by
  rw [← Complex.ofReal_mul, Real.mul_self_sqrt (by norm_num)]
  norm_num

lemma two_div_sq_sub (A B r : ℂ) (hr : r * r = 2) : ((A + B) / r - (A - B) / r) / r = B := by
  rw [div_sub_div_same]
  have h2 : (A + B) - (A - B) = 2 * B := by ring
  rw [h2, div_div, hr, mul_div_cancel_left₀ _ (two_ne_zero)]

lemma two_div_sq_add (A B r : ℂ) (hr : r * r = 2) : ((A + B) / r + (A - B) / r) / r = A := by
  rw [div_add_div_same]
  have h2 : (A + B) + (A - B) = 2 * A := by ring
  rw [h2, div_div, hr, mul_div_cancel_left₀ _ (two_ne_zero)]

lemma applyGate_x_inv (q : ℕ) (f : ℕ → ℂ) :
    applyGate (Gate.x q).inv (applyGate (Gate.x q) f) = f := by
  funext s
  simp only [Gate.inv, applyGate]
  rw [Nat.xor_cancel_right]

lemma applyGate_h_inv (q : ℕ) (f : ℕ → ℂ) :
    applyGate (Gate.h q).inv (applyGate (Gate.h q) f) = f := by
  funext s
  simp only [Gate.inv, applyGate]
  by_cases hb : s.testBit q
  · simp only [hb, testBit_xor_pow, Bool.not_true, if_true, if_false,
      Nat.xor_cancel_right]
    simp only [Bool.false_eq_true, if_false]
    exact two_div_sq_sub (f (s ^^^ 2 ^ q)) (f s) _ sqrt2_sq
  · simp only [Bool.not_eq_true] at hb
    simp only [hb, testBit_xor_pow, Bool.not_false, if_true, if_false,
      Nat.xor_cancel_right]
    simp only [Bool.false_eq_true, if_false, if_true]
    exact two_div_sq_add (f s) (f (s ^^^ 2 ^ q)) _ sqrt2_sq

lemma phaseFactor_mul_neg (r : ℚ) : phaseFactor (-r) * phaseFactor r = 1 := by
  rw [phaseFactor, phaseFactor, ← Complex.exp_add]
  have h : (((-r : ℚ) : ℝ) : ℂ) * (Real.pi : ℂ) * I + ((r : ℚ) : ℝ) * (Real.pi : ℂ) * I = 0 := by
    push_cast
    ring
  rw [h, Complex.exp_zero]

lemma applyGate_cp_inv (r : ℚ) (c t : ℕ) (f : ℕ → ℂ) :
    applyGate (Gate.cp r c t).inv (applyGate (Gate.cp r c t) f) = f := by
  funext s
  simp only [Gate.inv, applyGate]
  by_cases hc : s.testBit c ∧ s.testBit t
  · rw [if_pos hc, if_pos hc, ← mul_assoc, phaseFactor_mul_neg, one_mul]
  · rw [if_neg hc, if_neg hc]

lemma applyGate_p_inv (r : ℚ) (q : ℕ) (f : ℕ → ℂ) :
    applyGate (Gate.p r q).inv (applyGate (Gate.p r q) f) = f := by
  funext s
  simp only [Gate.inv, applyGate]
  by_cases hq : s.testBit q
  · rw [if_pos hq, if_pos hq, ← mul_assoc, phaseFactor_mul_neg, one_mul]
  · rw [if_neg hq, if_neg hq]

lemma bool_xor_shuffle : ∀ x p q : Bool, ((((x ^^ p) ^^ q) ^^ p) ^^ q) = x := by decide

lemma swapBits_swapBits (s a b : ℕ) : swapBits (swapBits s a b) a b = s := by
  by_cases h : s.testBit a = s.testBit b
  · have hin : swapBits s a b = s := by rw [swapBits, if_pos h]
    rw [hin, swapBits, if_pos h]
  · have hab : a ≠ b := fun he => h (by rw [he])
    have hta : (s ^^^ 2 ^ a ^^^ 2 ^ b).testBit a = ! s.testBit a := by
      rw [Nat.testBit_xor, Nat.testBit_xor, Nat.testBit_two_pow_self,
        Nat.testBit_two_pow_of_ne hab.symm]
      cases s.testBit a <;> rfl
    have htb : (s ^^^ 2 ^ a ^^^ 2 ^ b).testBit b = ! s.testBit b := by
      rw [Nat.testBit_xor, Nat.testBit_xor, Nat.testBit_two_pow_self,
        Nat.testBit_two_pow_of_ne hab]
      cases s.testBit b <;> rfl
    have hin : swapBits s a b = s ^^^ 2 ^ a ^^^ 2 ^ b := by rw [swapBits, if_neg h]
    rw [hin, swapBits, if_neg (by
      rw [hta, htb]
      intro hcon
      exact h (by
        cases ha : s.testBit a <;> cases hbb : s.testBit b <;>
          rw [ha, hbb] at hcon <;> simp_all))]
    apply Nat.eq_of_testBit_eq
    intro i
    simp only [Nat.testBit_xor]
    exact bool_xor_shuffle (s.testBit i) ((2 ^ a).testBit i) ((2 ^ b).testBit i)

lemma applyGate_swap_inv (a b : ℕ) (f : ℕ → ℂ) :
    applyGate (Gate.swap a b).inv (applyGate (Gate.swap a b) f) = f := by
  funext s
  simp only [Gate.inv, applyGate]
  rw [swapBits_swapBits]

lemma runGates_cons (g : Gate) (l : List Gate) (f : ℕ → ℂ) :
    runGates (g :: l) f = runGates l (applyGate g f) := rfl

lemma runGates_append (l1 l2 : List Gate) (f : ℕ → ℂ) :
    runGates (l1 ++ l2) f = runGates l2 (runGates l1 f) := by
  rw [runGates, runGates, runGates, List.foldl_append]

lemma runGates_inverse (l : List Gate)
    (h : ∀ g ∈ l, ∀ f : ℕ → ℂ, applyGate g.inv (applyGate g f) = f) :
    ∀ f : ℕ → ℂ, runGates ((l.map Gate.inv).reverse) (runGates l f) = f := by
  induction l with
  | nil => intro f; rfl
  | cons g rest ih =>
    intro f
    have h1 : runGates ((rest.map Gate.inv).reverse) (runGates rest (applyGate g f))
        = applyGate g f :=
      ih (fun x hx f2 => h x (List.mem_cons_of_mem g hx) f2) (applyGate g f)
    rw [List.map_cons, List.reverse_cons, runGates_append, runGates_cons g rest f, h1]
    show applyGate g.inv (applyGate g f) = f
    exact h g (List.mem_cons_self g rest) f

lemma qftGates_invertible (n : ℕ) :
    ∀ g ∈ qftGates n, ∀ f : ℕ → ℂ, applyGate g.inv (applyGate g f) = f := by
  intro g hg
  rw [qftGates] at hg
  rcases List.mem_append.mp hg with hg1 | hg2
  · obtain ⟨i, _, hmem⟩ := List.mem_flatMap.mp hg1
    rcases List.mem_cons.mp hmem with rfl | hcp
    · exact applyGate_h_inv i
    · obtain ⟨j, _, rfl⟩ := List.mem_map.mp hcp
      exact applyGate_cp_inv _ _ _
  · obtain ⟨i, _, rfl⟩ := List.mem_map.mp hg2
    exact applyGate_swap_inv _ _

/-- Claim C5: construct_inverse_qft(n) is the gate-by-gate inverse of
construct_qft(n) (inverted gates, phase angles negated, in reversed order),
and running the forward gates followed by the inverse gates restores every
computational basis state exactly. -/
theorem qft_inverse_roundtrip (n : ℕ) (hn : 0 < n) :
    constructInverseQft (n : ℤ)
      = Except.ok ⟨n, 0, ((qftGates n).map Gate.inv).reverse⟩ ∧
    (∀ r c t, (Gate.cp r c t).inv = Gate.cp (-r) c t) ∧
    ∀ x : ℕ,
      runGates (qftGates n ++ ((qftGates n).map Gate.inv).reverse) (basisState x)
        = basisState x := by
  refine ⟨constructInverseQft_natCast n, fun r c t => rfl, fun x => ?_⟩
  rw [runGates_append]
  exact runGates_inverse (qftGates n) (qftGates_invertible n) (basisState x)

/-- Witness for claim C5 at the concrete input n = 1 and basis state 0. -/
theorem qft_inverse_roundtrip_witness :
    ((0 : ℕ) < 1) ∧
    constructInverseQft ((1 : ℕ) : ℤ)
      = Except.ok ⟨1, 0, ((qftGates 1).map Gate.inv).reverse⟩ ∧
    runGates (qftGates 1 ++ ((qftGates 1).map Gate.inv).reverse) (basisState 0)
      = basisState 0 :=
  ⟨by norm_num, (qft_inverse_roundtrip 1 (by norm_num)).1,
    (qft_inverse_roundtrip 1 (by norm_num)).2.2 0⟩

/-! Gate basis transformer lemmas. -/

lemma remapQubits_name (g inst : Inst) : (remapQubits g inst).name = inst.name := rfl

lemma transform_names (ea : Inst → ℚ × ℚ × ℚ) (dec : Inst → List Inst) (c : GCircuit)
    (hdec : ∀ g inst, inst ∈ dec g → inst.qubits.length ≠ 1 → strLower inst.name ∈ basisGates) :
    ∀ inst ∈ (transformCircuit ea dec c).insts, strLower inst.name ∈ basisGates := by
  intro inst hmem
  rw [transformCircuit] at hmem
  obtain ⟨g, hg, hinst⟩ := List.mem_flatMap.mp hmem
  by_cases h1 : g.name = "measure"
  · rw [if_pos h1] at hinst
    cases hinst
  rw [if_neg h1] at hinst
  by_cases h2 : strLower g.name ∈ basisGates
  · rw [if_pos h2, List.mem_singleton] at hinst
    subst hinst
    exact h2
  rw [if_neg h2] at hinst
  by_cases h3 : g.qubits.length = 1
  · rw [if_pos h3] at hinst
    simp only [decomposeSingleQubitGate, List.mem_cons, List.mem_singleton] at hinst
    rcases hinst with rfl | rfl | rfl | rfl | rfl | hfalse
    · exact (by decide : strLower ("rz") ∈ basisGates)
    · exact (by decide : strLower ("sx") ∈ basisGates)
    · exact (by decide : strLower ("rz") ∈ basisGates)
    · exact (by decide : strLower ("sx") ∈ basisGates)
    · exact (by decide : strLower ("rz") ∈ basisGates)
    · cases hfalse
  rw [if_neg h3] at hinst
  by_cases h4 : g.name = "cx"
  · rw [if_pos h4, List.mem_singleton] at hinst
    subst hinst
    rw [h4]
    decide
  rw [if_neg h4] at hinst
  obtain ⟨inner, hinner, hinst2⟩ := List.mem_flatMap.mp hinst
  by_cases h5 : inner.qubits.length = 1
  · rw [if_pos h5] at hinst2
    simp only [decomposeSingleQubitGate, List.mem_cons, List.mem_singleton] at hinst2
    rcases hinst2 with rfl | rfl | rfl | rfl | rfl | hfalse
    · exact (by decide : strLower ("rz") ∈ basisGates)
    · exact (by decide : strLower ("sx") ∈ basisGates)
    · exact (by decide : strLower ("rz") ∈ basisGates)
    · exact (by decide : strLower ("sx") ∈ basisGates)
    · exact (by decide : strLower ("rz") ∈ basisGates)
    · cases hfalse
  · rw [if_neg h5, List.mem_singleton] at hinst2
    subst hinst2
    rw [remapQubits_name]
    exact hdec g inner hinner h5

/-- Claim C7 amended: provided every multi-qubit instruction handed back by
the library decomposition collaborator is itself basis named, every
instruction of the transformed circuit has a basis name and none is a
measurement; unconditionally, a measurement instruction of the input is
dropped from the output. -/
theorem transform_basis_amended :
    (∀ (ea : Inst → ℚ × ℚ × ℚ) (dec : Inst → List Inst) (c : GCircuit),
      (∀ g inst, inst ∈ dec g → inst.qubits.length ≠ 1 → strLower inst.name ∈ basisGates) →
      ∀ inst ∈ (transformCircuit ea dec c).insts,
        strLower inst.name ∈ basisGates ∧ inst.name ≠ "measure") ∧
    (∀ (ea : Inst → ℚ × ℚ × ℚ) (dec : Inst → List Inst) (q cl : ℕ) (m : Inst)
      (rest : List Inst), m.name = "measure" →
      transformCircuit ea dec ⟨q, cl, m :: rest⟩ = transformCircuit ea dec ⟨q, cl, rest⟩) := by
  constructor
  · intro ea dec c hdec inst hmem
    have hb := transform_names ea dec c hdec inst hmem
    refine ⟨hb, fun hname => ?_⟩
    rw [hname] at hb
    exact absurd hb (by decide)
  · intro ea dec q cl m rest hm
    simp [transformCircuit, hm]

/-- Witness for the amended claim C7: the trivial decompose collaborator and
a one-gate circuit. -/
theorem transform_basis_witness :
    (∀ (g inst : Inst), inst ∈ ((fun _ => []) : Inst → List Inst) g →
      inst.qubits.length ≠ 1 → strLower inst.name ∈ basisGates) ∧
    (∀ inst ∈ (transformCircuit (fun _ => (0, 0, 0)) (fun _ => [])
        ⟨1, 0, [{ name := "h", params := [], qubits := [0], clbits := [] }]⟩).insts,
      strLower inst.name ∈ basisGates ∧ inst.name ≠ "measure") :=
  ⟨fun g inst hmem => absurd hmem (List.not_mem_nil inst),
    transform_basis_amended.1 (fun _ => (0, 0, 0)) (fun _ => [])
      ⟨1, 0, [{ name := "h", params := [], qubits := [0], clbits := [] }]⟩
      (fun g inst hmem => absurd hmem (List.not_mem_nil inst))⟩

/-- The library expansion of the cswap (Fredkin) operator: cx on (2,1), ccx
on (0,1,2), cx on (2,1), exactly the elementary definition the library
decompose step returns for it; the collaborator returns nothing for other
operators. -/
def cswapLibDecompose : Inst → List Inst := fun g =>
  if g.name = "cswap" then
    [{ name := "cx", params := [], qubits := [2, 1], clbits := [] },
     { name := "ccx", params := [], qubits := [0, 1, 2], clbits := [] },
     { name := "cx", params := [], qubits := [2, 1], clbits := [] }]
  else []

/-- A trivial Euler angle collaborator for the counterexample circuits. -/
def zeroAngles : Inst → ℚ × ℚ × ℚ := fun _ => (0, 0, 0)

/-- A circuit holding one cswap instruction over three qubits. -/
def cswapCircuit : GCircuit :=
  { numQubits := 3, numClbits := 0,
    insts := [{ name := "cswap", params := [], qubits := [0, 1, 2], clbits := [] }] }

/-- Claim C7 counterexample: transforming the one-gate cswap circuit leaves
a ccx instruction in the output, whose name is outside the fixed basis set. -/
theorem transform_basis_counterexample :
    ∃ inst ∈ (transformCircuit zeroAngles cswapLibDecompose cswapCircuit).insts,
      strLower inst.name ∉ basisGates := by
  decide

/-! Gate count table lemmas. -/

/-- A count table over the basis gate names. -/
def tableOf (cnt : String → ℕ) : List (String × ℕ) := basisGates.map fun x => (x, cnt x)

lemma lookup_tableOf (cnt : String → ℕ) (g : String) (hg : g ∈ basisGates) :
    (tableOf cnt).lookup g = some (cnt g) := by
  simp only [basisGates, List.mem_cons, List.not_mem_nil, or_false] at hg
  rcases hg with rfl | rfl | rfl | rfl | rfl <;> simp [tableOf, basisGates, List.lookup]

lemma lookup_tableOf_none (cnt : String → ℕ) (g : String) (hg : g ∉ basisGates) :
    (tableOf cnt).lookup g = none := by
  simp only [basisGates, List.mem_cons, List.not_mem_nil, or_false, not_or] at hg
  obtain ⟨h1, h2, h3, h4, h5⟩ := hg
  have b1 : (g == "cx") = false := beq_eq_false_iff_ne.mpr h1
  have b2 : (g == "id") = false := beq_eq_false_iff_ne.mpr h2
  have b3 : (g == "rz") = false := beq_eq_false_iff_ne.mpr h3
  have b4 : (g == "sx") = false := beq_eq_false_iff_ne.mpr h4
  have b5 : (g == "x") = false := beq_eq_false_iff_ne.mpr h5
  simp [tableOf, basisGates, List.lookup, b1, b2, b3, b4, b5]

lemma bump_tableOf (cnt : String → ℕ) (s : String) :
    ((tableOf cnt).map fun p => if p.1 = s then (p.1, p.2 + 1) else p)
      = tableOf fun x => if x = s then cnt x + 1 else cnt x := by
  rw [tableOf, tableOf, List.map_map]
  apply List.map_congr_left
  intro x _
  by_cases hx : x = s <;> simp [hx]

lemma tableOf_congr (f g : String → ℕ) (h : ∀ x ∈ basisGates, f x = g x) :
    tableOf f = tableOf g := by
  rw [tableOf, tableOf]
  apply List.map_congr_left
  intro x hx
  rw [h x hx]

lemma counts_fold (insts : List Inst) :
    ∀ cnt : String → ℕ,
      insts.foldl
        (fun counts inst =>
          let gate_name := strLower inst.name
          if (counts.lookup gate_name).isSome then
            counts.map fun p => if p.1 = gate_name then (p.1, p.2 + 1) else p
          else counts)
        (tableOf cnt)
      = tableOf fun x => cnt x + (insts.filter fun i => strLower i.name = x).length := by
  induction insts with
  | nil =>
    intro cnt
    simp only [List.foldl_nil, List.filter_nil, List.length_nil, add_zero]
  | cons i rest ih =>
    intro cnt
    rw [List.foldl_cons]
    by_cases hmem : strLower i.name ∈ basisGates
    · have hsome : (((tableOf cnt).lookup (strLower i.name)).isSome) = true := by
        rw [lookup_tableOf cnt _ hmem]
        rfl
      simp only [hsome, if_true]
      rw [bump_tableOf, ih]
      apply tableOf_congr
      intro x _
      rw [List.filter_cons]
      by_cases hx : strLower i.name = x
      · subst hx
        simp
        omega
      · have hx2 : ¬ (x = strLower i.name) := fun he => hx he.symm
        simp [hx, hx2]
    · have hnone : (((tableOf cnt).lookup (strLower i.name)).isSome) = false := by
        rw [lookup_tableOf_none cnt _ hmem]
        rfl
      simp only [hnone, Bool.false_eq_true, if_false]
      rw [ih]
      apply tableOf_congr
      intro x hx
      rw [List.filter_cons]
      have hne : ¬ strLower i.name = x := fun he => hmem (he ▸ hx)
      simp [hne]

lemma getGateCounts_eq (c : GCircuit) :
    getGateCounts c = tableOf fun x => (c.insts.filter fun i => strLower i.name = x).length := by
  rw [getGateCounts]
  have h0 : (basisGates.map fun g => (g, 0)) = tableOf (fun _ => 0) := rfl
  rw [h0, counts_fold]
  apply tableOf_congr
  intro x _
  rw [Nat.zero_add]

lemma length_filter_cons (p : Inst → Bool) (a : Inst) (l : List Inst) :
    ((a :: l).filter p).length = (if p a = true then (1 : ℕ) else 0) + (l.filter p).length := by
  rw [List.filter_cons]
  by_cases hp : p a = true
  · rw [if_pos hp, if_pos hp, List.length_cons]
    omega
  · rw [if_neg hp, if_neg hp, Nat.zero_add]

lemma indicator_split (s : String) :
    (if decide (s ∈ basisGates) = true then (1 : ℕ) else 0)
      = (if decide (s = "cx") = true then (1 : ℕ) else 0)
        + (if decide (s = "id") = true then (1 : ℕ) else 0)
        + (if decide (s = "rz") = true then (1 : ℕ) else 0)
        + (if decide (s = "sx") = true then (1 : ℕ) else 0)
        + (if decide (s = "x") = true then (1 : ℕ) else 0) := by
  by_cases h : s ∈ basisGates
  · rcases (show s = "cx" ∨ s = "id" ∨ s = "rz" ∨ s = "sx" ∨ s = "x" by
        simpa [basisGates] using h) with h1 | h1 | h1 | h1 | h1 <;> subst h1 <;> decide
  · have h1 : ¬ s = "cx" := fun he => h (by rw [he]; decide)
    have h2 : ¬ s = "id" := fun he => h (by rw [he]; decide)
    have h3 : ¬ s = "rz" := fun he => h (by rw [he]; decide)
    have h4 : ¬ s = "sx" := fun he => h (by rw [he]; decide)
    have h5 : ¬ s = "x" := fun he => h (by rw [he]; decide)
    simp [h, h1, h2, h3, h4, h5]

lemma filter_mem_split (insts : List Inst) :
    (insts.filter fun i => strLower i.name ∈ basisGates).length
      = (insts.filter fun i => strLower i.name = "cx").length
        + (insts.filter fun i => strLower i.name = "id").length
        + (insts.filter fun i => strLower i.name = "rz").length
        + (insts.filter fun i => strLower i.name = "sx").length
        + (insts.filter fun i => strLower i.name = "x").length := by
  induction insts with
  | nil => rfl
  | cons i rest ih =>
    rw [length_filter_cons, length_filter_cons, length_filter_cons, length_filter_cons,
      length_filter_cons, length_filter_cons, ih]
    have hs := indicator_split (strLower i.name)
    omega

lemma valueSum_counts (c : GCircuit) :
    valueSum (getGateCounts c)
      = (c.insts.filter fun i => strLower i.name ∈ basisGates).length := by
  rw [getGateCounts_eq, filter_mem_split]
  show valueSum (tableOf _) = _
  rw [valueSum, tableOf, basisGates]
  simp only [List.map_cons, List.map_nil, List.sum_cons, List.sum_nil]
  omega

/-- Claim C9 amended: get_gate_counts is a table over exactly the basis gate
names (unrecognized names are neither counted nor keys), each basis name is
mapped to its occurrence count, and the values sum to the number of
basis-named instructions; on a transformed circuit this equals the total
instruction count provided the decompose collaborator emits only basis-named
multi-qubit instructions. -/
theorem gate_counts_amended :
    (∀ c : GCircuit, (getGateCounts c).map Prod.fst = basisGates) ∧
    (∀ c : GCircuit, ∀ g, g ∈ basisGates →
      (getGateCounts c).lookup g
        = some ((c.insts.filter fun i => strLower i.name = g).length)) ∧
    (∀ c : GCircuit, ∀ g, g ∉ basisGates → (getGateCounts c).lookup g = none) ∧
    (∀ c : GCircuit, valueSum (getGateCounts c)
        = (c.insts.filter fun i => strLower i.name ∈ basisGates).length) ∧
    (∀ (ea : Inst → ℚ × ℚ × ℚ) (dec : Inst → List Inst) (c : GCircuit),
      (∀ g inst, inst ∈ dec g → inst.qubits.length ≠ 1 → strLower inst.name ∈ basisGates) →
      valueSum (getGateCounts (transformCircuit ea dec c))
        = (transformCircuit ea dec c).insts.length) := by
  refine ⟨?_, ?_, ?_, valueSum_counts, ?_⟩
  · intro c
    rw [getGateCounts_eq, tableOf, List.map_map]
    show List.map (fun x => x) basisGates = basisGates
    exact List.map_id' basisGates
  · intro c g hg
    rw [getGateCounts_eq, lookup_tableOf _ _ hg]
  · intro c g hg
    rw [getGateCounts_eq, lookup_tableOf_none _ _ hg]
  · intro ea dec c hdec
    rw [valueSum_counts]
    congr 1
    rw [List.filter_eq_self]
    intro inst hinst
    simpa using transform_names ea dec c hdec inst hinst

/-- Witness for the amended claim C9 at concrete inputs. -/
theorem gate_counts_witness :
    ((getGateCounts cswapCircuit).lookup ("cx")
      = some ((cswapCircuit.insts.filter fun i => strLower i.name = "cx").length)) ∧
    ((getGateCounts cswapCircuit).lookup ("ccx") = none) ∧
    (valueSum (getGateCounts (transformCircuit zeroAngles (fun _ => []) cswapCircuit))
      = (transformCircuit zeroAngles (fun _ => []) cswapCircuit).insts.length) :=
  ⟨gate_counts_amended.2.1 cswapCircuit "cx" (by decide),
    gate_counts_amended.2.2.1 cswapCircuit "ccx" (by decide),
    gate_counts_amended.2.2.2.2 zeroAngles (fun _ => []) cswapCircuit
      (fun g inst hmem => absurd hmem (List.not_mem_nil inst))⟩

/-- Claim C9 counterexample: on the transformed cswap circuit the counts sum
to 2 while the circuit holds 3 instructions, because the ccx left by the
library decomposition is not counted. -/
theorem gate_counts_counterexample :
    valueSum (getGateCounts (transformCircuit zeroAngles cswapLibDecompose cswapCircuit)) = 2 ∧
    (transformCircuit zeroAngles cswapLibDecompose cswapCircuit).insts.length = 3 := by
  constructor <;> decide

/-! The Euler decomposition wiring, evaluated on the Hadamard gate. -/

/-- A Hadamard instruction on qubit 0, the failing input for the Euler
decomposition wiring. -/
def hGateInst : Inst := { name := "h", params := [], qubits := [0], clbits := [] }

/-- The canonical ZYZ Euler triple of the Hadamard gate, (theta, phi, lambda)
= (pi/2, 0, pi), as rational coefficients of pi: H equals
exp(i pi/2) RZ(phi) RY(theta) RZ(lambda), which the bug theorem proves.
These are the values the library angle extraction returns for H. -/
def hZyzAngles : Inst → ℚ × ℚ × ℚ := fun _ => (1/2, 0, 1)

lemma exp_ofReal_mul_I (x : ℝ) :
    Complex.exp ((x : ℂ) * I) = (Real.cos x : ℂ) + (Real.sin x : ℂ) * I := by
  rw [Complex.exp_mul_I, Complex.ofReal_cos, Complex.ofReal_sin]

lemma RZc_zero : RZc 0 = 1 := by
  rw [RZc]
  norm_num
  rw [Matrix.one_fin_two]

lemma RZc_one : RZc 1 = !![-I, 0; 0, I] := by
  have h1 : (-(((1 : ℚ) : ℝ) * Real.pi / 2) : ℂ) * I = ((-(Real.pi / 2) : ℝ) : ℂ) * I := by
    push_cast
    ring
  have h2 : ((((1 : ℚ) : ℝ) * Real.pi / 2) : ℂ) * I = (((Real.pi / 2) : ℝ) : ℂ) * I := by
    push_cast
    ring
  rw [RZc, h1, h2, exp_ofReal_mul_I, exp_ofReal_mul_I]
  norm_num [Real.cos_pi_div_two, Real.sin_pi_div_two]

lemma RZc_half : RZc (1/2)
    = !![((Real.sqrt 2 / 2 : ℝ) : ℂ) * (1 - I), 0;
         0, ((Real.sqrt 2 / 2 : ℝ) : ℂ) * (1 + I)] := by
  have h1 : (-((((1 : ℚ)/2 : ℚ) : ℝ) * Real.pi / 2) : ℂ) * I
      = ((-(Real.pi / 4) : ℝ) : ℂ) * I := by
    push_cast
    ring
  have h2 : (((((1 : ℚ)/2 : ℚ) : ℝ) * Real.pi / 2) : ℂ) * I
      = (((Real.pi / 4) : ℝ) : ℂ) * I := by
    push_cast
    ring
  rw [RZc, h1, h2, exp_ofReal_mul_I, exp_ofReal_mul_I]
  ext i j
  fin_cases i <;> fin_cases j <;>
    simp [Real.cos_pi_div_four, Real.sin_pi_div_four] <;> ring

lemma RYc_half : RYc (1/2)
    = !![((Real.sqrt 2 / 2 : ℝ) : ℂ), -((Real.sqrt 2 / 2 : ℝ) : ℂ);
         ((Real.sqrt 2 / 2 : ℝ) : ℂ), ((Real.sqrt 2 / 2 : ℝ) : ℂ)] := by
  have h : (((1 : ℚ)/2 : ℚ) : ℝ) * Real.pi / 2 = Real.pi / 4 := by
    push_cast
    ring
  rw [RYc, h]
  norm_num [Real.cos_pi_div_four, Real.sin_pi_div_four]

lemma sx_rz_sx : SXmat * RZc (1/2) * SXmat = Hmat := by
  rw [RZc_half, SXmat, Hmat]
  ext i j
  fin_cases i <;> fin_cases j <;>
    simp [Matrix.mul_apply, Fin.sum_univ_two, Matrix.smul_apply] <;>
    ring_nf <;>
    simp [Complex.I_sq] <;>
    ring

lemma code_matrix_eq :
    RZc 1 * SXmat * RZc (1/2) * SXmat * RZc 0 = RZc 1 * Hmat := by
  rw [RZc_zero, mul_one, mul_assoc (RZc 1) SXmat (RZc (1/2)),
    mul_assoc (RZc 1) (SXmat * RZc (1/2)) SXmat, sx_rz_sx]

/-- Claim C8: _decompose_single_qubit_gate on the Hadamard gate, whose
canonical ZYZ Euler triple is (theta, phi, lambda) = (pi/2, 0, pi), emits
exactly the five operations rz(phi), sx, rz(theta), sx, rz(lambda) in order,
but the unitary of that sequence, RZ(lambda) SX RZ(theta) SX RZ(phi), is not
the Hadamard matrix up to any global phase: the wiring omits the angle
shifts the ZSX form requires, so the five gates do not reproduce the input
unitary. -/
theorem decompose_single_qubit_bug :
    decomposeSingleQubitGate hZyzAngles hGateInst 0
      = [{ name := "rz", params := [0], qubits := [0], clbits := [] },
         { name := "sx", params := [], qubits := [0], clbits := [] },
         { name := "rz", params := [1/2], qubits := [0], clbits := [] },
         { name := "sx", params := [], qubits := [0], clbits := [] },
         { name := "rz", params := [1], qubits := [0], clbits := [] }] ∧
    Hmat = Complex.exp (((Real.pi / 2 : ℝ) : ℂ) * I) • (RZc 0 * RYc (1/2) * RZc 1) ∧
    seqUnitary (decomposeSingleQubitGate hZyzAngles hGateInst 0)
      = RZc 1 * SXmat * RZc (1/2) * SXmat * RZc 0 ∧
    ∀ c : ℂ, RZc 1 * SXmat * RZc (1/2) * SXmat * RZc 0 ≠ c • Hmat := by
  refine ⟨rfl, ?_, ?_, ?_⟩
  · rw [RZc_zero, one_mul, RZc_one, RYc_half, exp_ofReal_mul_I, Hmat]
    norm_num [Real.cos_pi_div_two, Real.sin_pi_div_two]
    ext i j
    fin_cases i <;> fin_cases j <;>
      simp [Matrix.mul_apply, Fin.sum_univ_two, Matrix.smul_apply] <;>
      ring_nf <;>
      simp [Complex.I_sq] <;>
      ring
  · simp [seqUnitary, instMatrix, decomposeSingleQubitGate, hZyzAngles, mul_assoc]
  · intro c hcon
    rw [code_matrix_eq] at hcon
    have h00 : (RZc 1 * Hmat) 0 0 = (c • Hmat) 0 0 := by rw [hcon]
    have h10 : (RZc 1 * Hmat) 1 0 = (c • Hmat) 1 0 := by rw [hcon]
    rw [RZc_one, Hmat] at h00 h10
    simp [Matrix.mul_apply, Fin.sum_univ_two, Matrix.smul_apply] at h00 h10
    have hc : c = I := h10.symm
    rw [hc] at h00
    have h2 : I * ((Real.sqrt 2 : ℝ) : ℂ) = 0 := by linear_combination (-1 : ℂ) * h00
    have hs2 : ((Real.sqrt 2 : ℝ) : ℂ) ≠ 0 :=
      Complex.ofReal_ne_zero.mpr (Real.sqrt_pos.mpr two_pos).ne'
    rcases mul_eq_zero.mp h2 with h | h
    · exact Complex.I_ne_zero h
    · exact hs2 h

/-- Witness for claim C4 at the concrete input n = 2. -/
theorem construct_qft_spec_witness :
    ((0 : ℕ) < 2) ∧
    constructQft ((2 : ℕ) : ℤ) = Except.ok
      { numQubits := 2, numClbits := 0,
        gates :=
          ((List.range 2).flatMap fun i =>
            Gate.h i :: (((List.range 2).filter fun j => i < j).map fun j =>
              Gate.cp ((2 : ℚ) / 2 ^ (j - i + 1)) j i))
          ++ (((List.range 2).filter fun i => i < 2 / 2).map fun i =>
              Gate.swap i (2 - 1 - i)) } :=
  ⟨by norm_num, construct_qft_spec 2 (by norm_num)⟩
